import Mathlib

/-!
Verification development for the batch-committing script
(src/git-commit-large-repo-test.py).

Modelling conventions for the shallow embedding:

* Paths are normalized relative paths, represented by their list of
  segments: the string "a/b/x.txt" becomes ["a", "b", "x.txt"].  The
  repository root (which the script writes as ".") is represented by [].
  With this representation, Python's os.path.dirname is dropLast,
  and x.count(os.sep) is the number of segments minus one.

* The working tree is the list of its regular files together with their
  sizes, in the enumeration order used by os.walk.  A directory exists
  exactly when some file lies strictly below it (the script never creates
  or inspects empty directories except through a dead branch, noted at its
  modelling site).

* Sizes are kept in bytes as natural numbers.  The script converts byte
  counts to floating-point megabytes (size / 1024²) and compares the
  results with the literals 50 and 100; since real file sizes are integer
  byte counts, a comparison size/1024² ≤ 50 is modelled exactly as
  sizeBytes ≤ 50·1024².  Sums of float megabyte values are idealized as
  exact sums of byte counts.

* Python dicts preserve insertion order; they are modelled as association
  lists with first-key-wins lookup and update-in-place-or-append
  assignment, which matches dict semantics including key order.

* Python's sorted(..., key=k, reverse=True) is a stable descending sort;
  it is modelled by List.mergeSort with the boolean relation
  fun a b => k b ≤ k a, which is stable and agrees with CPython's
  behaviour on ties (ties keep their input order).

* External effects (git subprocesses, the exit code of os.system) are
  modelled by explicit oracles giving the success of each issued command.
-/

namespace GitBatch

/-- Normalized relative paths as segment lists; [] is the repository root. -/
abbrev Path := List String

/-- Python os.path.dirname on a normalized relative path: every segment but
the last; [] (the empty string, or the script's ".") for a top-level name. -/
def dirname (p : Path) : Path := p.dropLast

/-- Python x.count(os.sep) for a normalized relative path: the number of
segments minus one (and 0 for the root, matching ".".count(os.sep)). -/
def sepCount (p : Path) : Nat := p.length - 1

/-- The 50 MB threshold (in bytes) used for directory collapsing and for
the chunk size of the file splitter. -/
def mb50 : Nat := 50 * 1024 * 1024

/-- The 100 MB batch-size ceiling, in bytes. -/
def mb100 : Nat := 100 * 1024 * 1024

/-- One regular file of the working tree, with its size in bytes. -/
structure FSFile where
  path : Path
  size : Nat
deriving DecidableEq, Repr

/-- The working tree: its regular files in os.walk enumeration order. -/
abbrev FS := List FSFile

/-- Python os.path.isfile: some tree entry has exactly this path. -/
def isFile (fs : FS) (p : Path) : Bool := fs.any (fun f => f.path == p)

/-- Python os.path.isdir: some tree entry lies strictly below this path. -/
def isDir (fs : FS) (p : Path) : Bool :=
  fs.any (fun f => p.isPrefixOf f.path && decide (p.length < f.path.length))

/-- Python os.path.exists, for the paths this script probes. -/
def fsExists (fs : FS) (p : Path) : Bool := isFile fs p || isDir fs p

/-- The files yielded below p by os.walk, in enumeration order. -/
def walkFiles (fs : FS) (p : Path) : List FSFile :=
  fs.filter (fun f => p.isPrefixOf f.path && decide (p.length < f.path.length))

/-- Source get_file_size_mb (lines 37-42): os.path.getsize(p) / 1024²,
with the except OSError branch returning 0 for a path that cannot be
statted.  Modelled in bytes: the size of the file at p, or 0 when there
is no such file. -/
def get_file_size_mb (fs : FS) (p : Path) : Nat :=
  match fs.find? (fun f => f.path == p) with
  | some f => f.size
  | none => 0

section AList

variable {α : Type}

/-- Python dict assignment d[k] = v on an insertion-ordered association
list: update in place when the key is present, else append. -/
def alistSet (l : List (Path × α)) (k : Path) (v : α) : List (Path × α) :=
  if l.any (fun e => e.1 == k) then
    l.map (fun e => if e.1 == k then (k, v) else e)
  else l ++ [(k, v)]

/-- Python dict lookup d.get(k) on an association list. -/
def alistGet? (l : List (Path × α)) (k : Path) : Option α :=
  (l.find? (fun e => e.1 == k)).map (fun e => e.2)

/-- The keys of an association list, in insertion order. -/
def alistKeys (l : List (Path × α)) : List Path := l.map (fun e => e.1)

/-- Python defaultdict(list) appending: m[k].append(v). -/
def mapAppend (m : List (Path × List α)) (k : Path) (v : α) :
    List (Path × List α) :=
  if m.any (fun e => e.1 == k) then
    m.map (fun e => if e.1 == k then (e.1, e.2 ++ [v]) else e)
  else m ++ [(k, [v])]

end AList

/-- The order relation of Python sorted(..., key=lambda x:
x.count(os.sep), reverse=True): a may come before b when its key is not
smaller. -/
def depthGE (a b : Path) : Prop := sepCount b ≤ sepCount a

instance : DecidableRel depthGE := fun a b =>
  inferInstanceAs (Decidable (sepCount b ≤ sepCount a))

instance : IsTotal Path depthGE :=
  ⟨fun a b => Nat.le_total (sepCount b) (sepCount a)⟩

instance : IsTrans Path depthGE :=
  ⟨fun _ _ _ h1 h2 => Nat.le_trans h2 h1⟩

/-- Python sorted(ds, key=lambda x: x.count(os.sep), reverse=True): a
stable descending sort by separator count (source lines 203-205 and 318).
CPython's sort is stable, and any two stable sorts under the same key
agree, so the stable insertionSort is an exact model. -/
def sortDirsDesc (ds : List Path) : List Path :=
  ds.insertionSort depthGE

/-! ## LargeFileSplitter (source lines 11-31) -/

/-- The read loop of split_large_file: cut the file content (a byte
sequence, kept abstract in α) into consecutive chunks of chunkSize, the
last chunk possibly shorter.  f.read returning the empty chunk ends the
loop, so an empty file — or a chunk size of 0, for which f.read(0) is
always empty — produces no parts. -/
def splitChunks {α : Type} : Nat → List α → List (List α)
  | _, [] => []
  | 0, _ :: _ => []
  | c + 1, x :: rest =>
    ((x :: rest).take (c + 1)) :: splitChunks (c + 1) ((x :: rest).drop (c + 1))
termination_by _ content => content.length
decreasing_by simp; omega

/-- Python's format specifier 04d used at source line 25: the decimal
digits of n, left-padded with zeros to at least four characters. -/
def pad4 (n : Nat) : String :=
  let s := toString n
  String.mk (List.replicate (4 - s.length) '0') ++ s

/-- Source split_large_file (lines 11-31): the produced part files, as
(file name, chunk content) pairs.  Part numbers start at 1; the part files
live in the sibling directory base_name ++ file_ext ++ "-split" (a pure
naming fact, not tracked here). -/
def split_large_file {α : Type} (chunkSize : Nat) (baseName fileExt : String)
    (content : List α) : List (String × List α) :=
  (splitChunks chunkSize content).enum.map
    (fun e => (baseName ++ fileExt ++ "-part" ++ pad4 (e.1 + 1), e.2))

/-! ## Ignore-file update of process_single_large_file (source lines 103-113) -/

/-- One step of the pattern loop at source lines 109-111: append the
pattern to the line list only when it is not already present. -/
def addPattern (lines : List String) (pat : String) : List String :=
  if pat ∈ lines then lines else lines ++ [pat]

/-- Source lines 103-113: the new content of the directory's .gitignore,
as a list of lines.  patterns_to_add is [file_name, base ++ ext ++ ".merged"],
and os.path.splitext guarantees base ++ ext = file_name. -/
def updateGitignore (lines : List String) (fileName : String) : List String :=
  addPattern (addPattern lines fileName) (fileName ++ ".merged")

/-! ## ChangeInventory: get_git_status (source lines 129-154)

The porcelain output is modelled as a list of lines, each a list of
characters.  Python string primitives used by the parser (strip, replace,
the infix test "in", and split) are embedded on character lists. -/

/-- The characters Python str.strip() removes. -/
def pyIsSpace (c : Char) : Bool :=
  c == ' ' || c == '\t' || c == '\n' || c == '\r' || c == '\x0b' || c == '\x0c'

/-- Python str.strip(): drop leading and trailing whitespace. -/
def pyStrip (l : List Char) : List Char :=
  ((l.dropWhile pyIsSpace).reverse.dropWhile pyIsSpace).reverse

/-- Python s.replace(chr(34), ""): remove every double-quote character. -/
def pyRemoveQuotes (l : List Char) : List Char :=
  l.filter (fun c => c != '"')

/-- The rename separator " -> " of porcelain output. -/
def arrowSep : List Char := [' ', '-', '>', ' ']

/-- Python " -> " in s: does the rename separator occur as a contiguous
substring? -/
def hasArrow : List Char → Bool
  | [] => false
  | c :: rest => arrowSep.isPrefixOf (c :: rest) || hasArrow rest

/-- Python s.split(" -> "): the list of fragments between (non-overlapping,
leftmost-first) occurrences of the separator. -/
def pySplitArrow : List Char → List (List Char)
  | [] => [[]]
  | c :: rest =>
    if arrowSep.isPrefixOf (c :: rest) then
      [] :: pySplitArrow ((c :: rest).drop arrowSep.length)
    else
      match pySplitArrow rest with
      | [] => [[c]]
      | p :: ps => (c :: p) :: ps
termination_by l => l.length
decreasing_by all_goals (simp [arrowSep]; try omega)

/-- One iteration of the parse loop of get_git_status (source lines
141-150): none for a blank line (the continue branch), otherwise the pair
(status code contains D, parsed path).  The status code is line[:2]
stripped; the path is line[3:] stripped with quotes removed, replaced by
the fragment after the first " -> " when a rename arrow is present. -/
def parseStatusLine (line : List Char) : Option (Bool × List Char) :=
  if pyStrip line = [] then none
  else
    let status := pyStrip (line.take 2)
    let filename0 := pyRemoveQuotes (pyStrip (line.drop 3))
    let filename :=
      if hasArrow filename0 then ((pySplitArrow filename0).drop 1).headD []
      else filename0
    some (status.contains 'D', filename)

/-- Source get_git_status (lines 129-154): fold the parse loop over the
porcelain lines, collecting (file_list, deleted_files). -/
def get_git_status (lines : List (List Char)) :
    List (List Char) × List (List Char) :=
  lines.foldl (fun acc line =>
    match parseStatusLine line with
    | none => acc
    | some (true, f) => (acc.1, acc.2 ++ [f])
    | some (false, f) => (acc.1 ++ [f], acc.2)) ([], [])

/-! ## DirectoryAggregator: scan_and_categorize_files (source lines 157-231) -/

/-- Source scan_directory (lines 157-173): the (path, size) pairs of all
files at or under a path; a plain file yields itself, a directory yields
its recursive members in walk order, anything else yields nothing.  (The
per-file except OSError skip cannot fire in this model: every listed tree
entry is statable.) -/
def scan_directory (fs : FS) (p : Path) : List (Path × Nat) :=
  if isFile fs p then [(p, get_file_size_mb fs p)]
  else if isDir fs p then (walkFiles fs p).map (fun f => (f.path, f.size))
  else []

/-- Source lines 183-191: expand the git-status add list into the flat
all_files list of (path, size) pairs, resolving each reported directory
through scan_directory. -/
def buildAllFiles (fs : FS) (gitFiles : List Path) : List (Path × Nat) :=
  gitFiles.foldl (fun acc p =>
    if isDir fs p then acc ++ scan_directory fs p
    else acc ++ [(p, get_file_size_mb fs p)]) []

/-- Source lines 197-200: group all_files by immediate containing
directory, skipping paths with no directory component (the falsy walrus
test on the empty dirname). -/
def dir_files_map (allFiles : List (Path × Nat)) :
    List (Path × List (Path × Nat)) :=
  allFiles.foldl (fun m fe =>
    if dirname fe.1 = [] then m else mapAppend m (dirname fe.1) fe) []

/-- The body of the per-file loop at source lines 216-219 (the above-50MB
branch): record the file individually unless it was already consumed. -/
def aggFileStep (a : List (Path × Nat) × List Path) (fe : Path × Nat) :
    List (Path × Nat) × List Path :=
  if a.2.contains fe.1 then a
  else (alistSet a.1 fe.1 fe.2, a.2 ++ [fe.1])

/-- The current_files filter at source lines 206-208: a directory's
member entries not yet consumed. -/
def aggCurrent (processed : List Path) (ms : List (Path × Nat)) :
    List (Path × Nat) :=
  ms.filter (fun fe => !(processed.contains fe.1))

/-- The body of the directory loop at source lines 203-219, for one
directory d with member list ms, acting on the state
(result_dict, processed_files).  Members already consumed are filtered
out; an empty remainder is skipped; a remainder totalling at most 50 MB
is recorded as one collapsed entry and consumed; a larger remainder is
recorded file by file. -/
def aggStep (acc : List (Path × Nat) × List Path) (d : Path)
    (ms : List (Path × Nat)) : List (Path × Nat) × List Path :=
  let current := aggCurrent acc.2 ms
  if current = [] then acc
  else
    let total := (current.map (fun fe => fe.2)).sum
    if total ≤ mb50 then
      (alistSet acc.1 d total, acc.2 ++ current.map (fun fe => fe.1))
    else
      current.foldl aggFileStep acc

/-- Source lines 202-219: the directory aggregation fold, over the map
keys sorted by descending separator count. -/
def aggregateDirs (m : List (Path × List (Path × Nat))) :
    List (Path × Nat) × List Path :=
  (sortDirsDesc (alistKeys m)).foldl
    (fun acc d => aggStep acc d ((alistGet? m d).getD [])) ([], [])

/-- The body of the top-level loop at source lines 221-223. -/
def topStep (processed : List Path) (r : List (Path × Nat)) (fe : Path × Nat) :
    List (Path × Nat) :=
  if dirname fe.1 = [] ∧ !(processed.contains fe.1) then alistSet r fe.1 fe.2
  else r

/-- Source lines 221-223: add every top-level file (empty dirname) that
was not consumed by the directory loop as an individual entry. -/
def addTopLevel (allFiles : List (Path × Nat))
    (acc : List (Path × Nat) × List Path) : List (Path × Nat) :=
  allFiles.foldl (topStep acc.2) acc.1

/-- Source lines 226-229: group the deleted files by directory; a
top-level deletion is grouped under "." (the root, [] in this model). -/
def deletedByDir (deletedFiles : List Path) : List (Path × List Path) :=
  deletedFiles.foldl (fun m p => mapAppend m (dirname p) p) []

/-- Source scan_and_categorize_files (lines 176-231), with the git status
lists supplied as inputs: the (files_dict, deleted_files,
deleted_files_by_dir) triple. -/
def scan_and_categorize (fs : FS) (gitFiles deletedFiles : List Path) :
    List (Path × Nat) × List Path × List (Path × List Path) :=
  if gitFiles = [] ∧ deletedFiles = [] then ([], [], [])
  else
    let allFiles := buildAllFiles fs gitFiles
    if allFiles = [] ∧ deletedFiles = [] then ([], [], [])
    else
      let acc := aggregateDirs (dir_files_map allFiles)
      (addTopLevel allFiles acc, deletedFiles, deletedByDir deletedFiles)

/-! ## BatchPlanner: the planning part of commit_in_batches
(source lines 304-373) -/

/-- One planned batch: its add paths, delete paths, and total size. -/
structure Batch where
  adds : List Path
  dels : List Path
  size : Nat
deriving DecidableEq, Repr

/-- The in-progress state of the planning loop: closed batches plus the
current batch under construction. -/
structure PlanState where
  batches : List Batch
  cur : List Path
  curDel : List Path
  curSize : Nat
deriving DecidableEq, Repr

/-- Close the current batch (source lines 344-345, 364-367): a copy of the
current contents is appended to the batch list and the accumulators reset. -/
def flushState (s : PlanState) : PlanState :=
  { batches := s.batches ++ [⟨s.cur, s.curDel, s.curSize⟩],
    cur := [], curDel := [], curSize := 0 }

/-- The body of the walk at source lines 326-332: append each still
existing file and add its size. -/
def walkGather (fs : FS) (acc : List Path × Nat) (f : FSFile) :
    List Path × Nat :=
  if fsExists fs f.path then
    (acc.1 ++ [f.path], acc.2 + get_file_size_mb fs f.path)
  else acc

/-- Source lines 320-337: the (dir_files, dir_size) pair gathered for one
entry of sorted_dirs.  A key that is an existing directory is re-walked on
the live tree, summing get_file_size_mb over its files; a key that is an
existing plain entry contributes itself with its dict size; anything else
contributes nothing. -/
def dirUnit (fs : FS) (filesDict : List (Path × Nat)) (d : Path) :
    List Path × Nat :=
  if (filesDict.any (fun e => e.1 == d)) ∧ isDir fs d then
    (walkFiles fs d).foldl (walkGather fs) ([], 0)
  else if filesDict.any (fun e => e.1 == d) then
    if fsExists fs d then ([d], (alistGet? filesDict d).getD 0) else ([], 0)
  else ([], 0)

/-- The body of the inner splitting loop at source lines 357-369: a file
of at most 100 MB closes the current batch when it would overflow and is
then appended; a larger file is skipped. -/
def planInnerStep (fs : FS) (t : PlanState) (fp : Path) : PlanState :=
  let fsz := get_file_size_mb fs fp
  if fsz ≤ mb100 then
    let t1 :=
      if t.curSize + fsz > mb100 ∧ (t.cur ≠ [] ∨ t.curDel ≠ []) then
        flushState t
      else t
    { t1 with cur := t1.cur ++ [fp], curSize := t1.curSize + fsz }
  else t

/-- The body of the planning loop (source lines 320-369) for one entry of
sorted_dirs: gather the unit, close the current batch when it would
overflow 100 MB, extend the current batch, and for a unit above 100 MB
run the inner splitting loop over its gathered files. -/
def planDirStep (fs : FS) (filesDict : List (Path × Nat))
    (dbd : List (Path × List Path)) (s : PlanState) (d : Path) : PlanState :=
  let u := dirUnit fs filesDict d
  let dirDeleted := (alistGet? dbd d).getD []
  let s1 :=
    if s.curSize + u.2 > mb100 ∧ (s.cur ≠ [] ∨ s.curDel ≠ []) then flushState s
    else s
  let s2 : PlanState :=
    { s1 with cur := s1.cur ++ u.1, curDel := s1.curDel ++ dirDeleted,
              curSize := s1.curSize + u.2 }
  if u.2 > mb100 then u.1.foldl (planInnerStep fs) s2
  else s2

/-- Source lines 309-315: extend files_dict with a zero-size entry for
every directory that has deletions but no entry yet. -/
def extendFilesDict (filesDict : List (Path × Nat))
    (dbd : List (Path × List Path)) : List (Path × Nat) :=
  dbd.foldl (fun fd e =>
    if fd.any (fun x => x.1 == e.1) then fd else fd ++ [(e.1, 0)]) filesDict

/-- The planning part of commit_in_batches (source lines 304-373).
setIter is the iteration order of the Python set all_dirs (the union of
the files_dict and deleted_files_by_dir keys); the source sorts that set
by descending separator count and folds the planning loop over it, then
closes the final non-empty batch. -/
def commit_in_batches_plan (fs : FS) (filesDict : List (Path × Nat))
    (dbd : List (Path × List Path)) (setIter : List Path) : List Batch :=
  let fd := extendFilesDict filesDict dbd
  let s := (sortDirsDesc setIter).foldl (planDirStep fs fd dbd) ⟨[], [], [], 0⟩
  if s.cur ≠ [] ∨ s.curDel ≠ [] then
    s.batches ++ [⟨s.cur, s.curDel, s.curSize⟩]
  else s.batches

/-- A list is a valid iteration order of the set all_dirs built at source
lines 310-315: no repetitions, and exactly the union of the files_dict and
deleted_files_by_dir keys. -/
def validIter (filesDict : List (Path × Nat)) (dbd : List (Path × List Path))
    (it : List Path) : Prop :=
  it.Nodup ∧ (∀ p ∈ it, p ∈ alistKeys filesDict ∨ p ∈ alistKeys dbd) ∧
    (∀ p ∈ alistKeys filesDict, p ∈ it) ∧ (∀ p ∈ alistKeys dbd, p ∈ it)

/-! ## BatchCommitter: commit_batch (source lines 245-301) -/

/-- The outcome of the git commands a batch issues, as observed through
os.system: whether each staging command and the commit/push pair succeed.
run_git_commands returns the conjunction of its commands' successes. -/
structure GitOracle where
  addOk : Path → Bool
  rmOk : Path → Bool
  commitOk : Bool
  pushOk : Bool

/-- The observable outcome of commit_batch: its boolean return value, and
whether the commit+push step was issued at all. -/
structure BatchResult where
  ok : Bool
  commitIssued : Bool
deriving DecidableEq, Repr

/-- Source lines 254-265: filter the add paths to those still on disk.
The empty-directory branch (lines 258-261) is dead code in Python —
any(os.walk(d)) is true for every existing directory, because os.walk
yields at least the root triple — and in this model a directory exists
only when it has files, so the filter reduces to existence. -/
def validAddPaths (fs : FS) (filePaths : List Path) : List Path :=
  filePaths.filter (fun p => fsExists fs p)

/-- Source lines 268-274: filter the delete paths to those confirmed
absent from disk. -/
def validDeletePaths (fs : FS) (deletedPaths : List Path) : List Path :=
  deletedPaths.filter (fun p => !(fsExists fs p))

/-- Source commit_batch (lines 245-301): skip (returning failure) when no
path is valid; otherwise stage each valid add and delete individually, and
issue commit+push only when at least one staging command succeeded,
returning its success; with valid paths but no successful staging, return
a no-op success without committing. -/
def commit_batch (fs : FS) (g : GitOracle) (filePaths deletedPaths : List Path) :
    BatchResult :=
  let validPaths := validAddPaths fs filePaths
  let validDeleted := validDeletePaths fs deletedPaths
  if validPaths = [] ∧ validDeleted = [] then ⟨false, false⟩
  else
    let successfulAdds := (validPaths.filter g.addOk).length
    let successfulDeletes := (validDeleted.filter g.rmOk).length
    if successfulAdds > 0 ∨ successfulDeletes > 0 then
      ⟨g.commitOk && g.pushOk, true⟩
    else ⟨true, false⟩

/-! ## Driver: execute_git_commands and main (source lines 390-429) -/

/-- The execution half of commit_in_batches (source lines 375-387): run
commit_batch on every planned batch, with a per-batch oracle, and return
True — the per-batch results only drive the progress printout (lines
378-385); line 387 returns True unconditionally. -/
def commit_in_batches_run (fs : FS) (g : Nat → GitOracle)
    (filesDict : List (Path × Nat)) (dbd : List (Path × List Path))
    (setIter : List Path) : Bool :=
  let batches := commit_in_batches_plan fs filesDict dbd setIter
  let _results := batches.enum.map
    (fun e => commit_batch fs (g e.1) e.2.adds e.2.dels)
  true

/-- Source execute_git_commands (lines 390-407): False on an empty
inventory; the single-shot path (git add -A; commit; push, whose combined
success is the oracle singleShotOk) when the total size is at most 100 MB
and there are no deletions; otherwise the batch path. -/
def execute_git_commands (fs : FS) (g : Nat → GitOracle) (singleShotOk : Bool)
    (filesDict : List (Path × Nat)) (deletedFiles : List Path)
    (dbd : List (Path × List Path)) (setIter : List Path) : Bool :=
  if filesDict = [] ∧ deletedFiles = [] then false
  else
    let totalSize := (filesDict.map (fun e => e.2)).sum
    if totalSize ≤ mb100 ∧ deletedFiles.length = 0 then singleShotOk
    else commit_in_batches_run fs g filesDict dbd setIter

/-- Source main (lines 410-429), reduced to its exit code.  argcOk is
len(sys.argv) == 2; msgFileExists is os.path.exists on the commit-message
file; fs is the working tree as seen after process_large_untracked_files;
gitFiles and deletedFiles are the parsed git status.  Exit 1 on argument
errors; exit 0 via the early return on an empty inventory; otherwise exit
0 or 1 according to execute_git_commands. -/
def mainExitCode (argcOk msgFileExists : Bool) (fs : FS)
    (g : Nat → GitOracle) (singleShotOk : Bool)
    (gitFiles deletedFiles : List Path) (setIter : List Path) : Nat :=
  if !argcOk then 1
  else if !msgFileExists then 1
  else
    let r := scan_and_categorize fs gitFiles deletedFiles
    if r.1 = [] ∧ r.2.1 = [] then 0
    else if execute_git_commands fs g singleShotOk r.1 r.2.1 r.2.2 setIter then 0
    else 1

/-! ## Claim C10: totality of the file-size query -/

/-- C10.  The file-size query is total: a path that is not a statable
file yields 0 MB rather than an error, and therefore contributes zero
weight to any size sum computed via get_file_size_mb (directory
aggregates, the 50 MB collapse test, batch size totals). -/
theorem file_size_query_total (fs : FS) (p : Path) (h : isFile fs p = false) :
    get_file_size_mb fs p = 0 ∧
      ∀ ps : List Path,
        ((ps ++ [p]).map (get_file_size_mb fs)).sum =
          (ps.map (get_file_size_mb fs)).sum := by
  have h0 : get_file_size_mb fs p = 0 := by
    unfold get_file_size_mb
    cases hf : fs.find? (fun f => f.path == p) with
    | none => rfl
    | some f =>
      have hpf := List.find?_some hf
      have hmem := List.mem_of_find?_eq_some hf
      have : isFile fs p = true := by
        unfold isFile
        exact List.any_eq_true.mpr ⟨f, hmem, hpf⟩
      rw [h] at this
      exact absurd this (by simp)
  refine ⟨h0, fun ps => ?_⟩
  simp [h0]

/-- Witness for C10: the missing path ghost has size 0 in a concrete
one-file tree. -/
theorem file_size_query_total_witness :
    get_file_size_mb [⟨["a"], 5⟩] [" ghost "] = 0 :=
  (file_size_query_total [⟨["a"], 5⟩] [" ghost "] (by decide)).1

/-! ## Claim C9: ignore-file update -/

theorem mem_addPattern_self (lines : List String) (pat : String) :
    pat ∈ addPattern lines pat := by
  unfold addPattern
  split
  · assumption
  · simp

theorem mem_addPattern_of_mem {lines : List String} {s : String} (pat : String)
    (h : s ∈ lines) : s ∈ addPattern lines pat := by
  unfold addPattern
  split
  · exact h
  · exact List.mem_append_left _ h

theorem addPattern_of_mem {lines : List String} {pat : String}
    (h : pat ∈ lines) : addPattern lines pat = lines := by
  unfold addPattern
  exact if_pos h

theorem mem_of_mem_addPattern {lines : List String} {pat s : String}
    (h : s ∈ addPattern lines pat) : s ∈ lines ∨ s = pat := by
  unfold addPattern at h
  split at h
  · exact Or.inl h
  · rcases List.mem_append.mp h with h1 | h1
    · exact Or.inl h1
    · simp at h1
      exact Or.inr h1

theorem addPattern_isPre (lines : List String) (pat : String) :
    lines <+: addPattern lines pat := by
  unfold addPattern
  split
  · exact List.prefix_rfl
  · exact ⟨[pat], rfl⟩

/-- C9.  The ignore-file update appends the file's name and its
name.merged pattern only when absent: existing lines are preserved in
order as a prefix of the result, the two patterns are present afterwards,
nothing else is ever added, and applying the update twice equals applying
it once. -/
theorem ignore_update_spec (lines : List String) (name : String) :
    (lines <+: updateGitignore lines name) ∧
    name ∈ updateGitignore lines name ∧
    (name ++ ".merged") ∈ updateGitignore lines name ∧
    (∀ s ∈ updateGitignore lines name,
      s ∈ lines ∨ s = name ∨ s = name ++ ".merged") ∧
    updateGitignore (updateGitignore lines name) name =
      updateGitignore lines name := by
  unfold updateGitignore
  refine ⟨?_, ?_, ?_, ?_, ?_⟩
  · exact (addPattern_isPre lines name).trans
      (addPattern_isPre (addPattern lines name) (name ++ ".merged"))
  · exact mem_addPattern_of_mem _ (mem_addPattern_self lines name)
  · exact mem_addPattern_self _ _
  · intro s hs
    rcases mem_of_mem_addPattern hs with h1 | h1
    · rcases mem_of_mem_addPattern h1 with h2 | h2
      · exact Or.inl h2
      · exact Or.inr (Or.inl h2)
    · exact Or.inr (Or.inr h1)
  · have hn : name ∈ addPattern (addPattern lines name) (name ++ ".merged") :=
      mem_addPattern_of_mem _ (mem_addPattern_self lines name)
    rw [addPattern_of_mem hn]
    exact addPattern_of_mem (mem_addPattern_self _ _)

/-- Witness for C9 (its statement is hypothesis-free, but a concrete
instance is recorded anyway): updating a one-line ignore file twice with
blob.bin equals updating it once. -/
theorem ignore_update_spec_witness :
    updateGitignore (updateGitignore ["*.log"] "blob.bin") "blob.bin" =
      updateGitignore ["*.log"] "blob.bin" :=
  (ignore_update_spec ["*.log"] "blob.bin").2.2.2.2

/-! ## Claim C4: commit_batch result contract -/

/-- C4 (amended).  The full result contract of commit_batch: a batch
whose valid add and delete lists are both empty returns failure without
issuing anything; with valid paths but zero successful staging
operations it returns a no-op success without commit+push; otherwise it
issues commit+push and returns their combined success. -/
theorem commit_batch_contract (fs : FS) (g : GitOracle)
    (filePaths deletedPaths : List Path) :
    (validAddPaths fs filePaths = [] ∧ validDeletePaths fs deletedPaths = [] →
      commit_batch fs g filePaths deletedPaths = ⟨false, false⟩) ∧
    (¬(validAddPaths fs filePaths = [] ∧ validDeletePaths fs deletedPaths = []) →
      (validAddPaths fs filePaths).filter g.addOk = [] →
      (validDeletePaths fs deletedPaths).filter g.rmOk = [] →
      commit_batch fs g filePaths deletedPaths = ⟨true, false⟩) ∧
    (¬(validAddPaths fs filePaths = [] ∧ validDeletePaths fs deletedPaths = []) →
      ¬((validAddPaths fs filePaths).filter g.addOk = [] ∧
        (validDeletePaths fs deletedPaths).filter g.rmOk = []) →
      commit_batch fs g filePaths deletedPaths =
        ⟨g.commitOk && g.pushOk, true⟩) := by
  refine ⟨fun h => ?_, fun h h1 h2 => ?_, fun h h1 => ?_⟩
  · unfold commit_batch
    rw [if_pos h]
  · unfold commit_batch
    rw [if_neg h, if_neg]
    rw [h1, h2]
    simp
  · unfold commit_batch
    rw [if_neg h, if_pos]
    rcases not_and_or.mp h1 with h2 | h2
    · exact Or.inl (by simpa [List.length_pos] using h2)
    · exact Or.inr (by simpa [List.length_pos] using h2)

/-- Counterexample for C4: a batch whose only add path does not exist on
disk has zero valid staged changes, yet commit_batch reports failure
(ok = false), not the no-op success the claim describes. -/
theorem empty_valid_batch_returns_failure :
    (commit_batch [] ⟨fun _ => true, fun _ => true, true, true⟩
      [["ghost"]] []).ok = false := by decide

/-- Witness for C4: a concrete batch whose adds all fail to stage is a
no-op success with no commit issued. -/
theorem commit_batch_contract_witness :
    commit_batch [⟨["a"], 5⟩] ⟨fun _ => false, fun _ => false, true, true⟩
      [["a"]] [] = ⟨true, false⟩ :=
  (commit_batch_contract [⟨["a"], 5⟩] ⟨fun _ => false, fun _ => false, true, true⟩
      [["a"]] []).2.1 (by decide) (by decide) (by decide)

/-! ## Claim C5: process exit codes -/

/-- C5 (amended).  The process exits with status 1 exactly on a wrong
argument count, a missing commit-message file, or a single-shot run whose
combined add/commit/push command fails; every batch-mode run exits 0
regardless of command failures, because commit_in_batches returns True
unconditionally. -/
theorem exit_code_characterization (argcOk msgFileExists : Bool) (fs : FS)
    (g : Nat → GitOracle) (singleShotOk : Bool)
    (gitFiles deletedFiles setIter : List Path) :
    mainExitCode argcOk msgFileExists fs g singleShotOk gitFiles deletedFiles
        setIter = 1 ↔
      (argcOk = false ∨ msgFileExists = false ∨
        (¬((scan_and_categorize fs gitFiles deletedFiles).1 = [] ∧
            (scan_and_categorize fs gitFiles deletedFiles).2.1 = []) ∧
          (((scan_and_categorize fs gitFiles deletedFiles).1.map
              (fun e => e.2)).sum ≤ mb100 ∧
            (scan_and_categorize fs gitFiles deletedFiles).2.1.length = 0) ∧
          singleShotOk = false)) := by
  unfold mainExitCode execute_git_commands commit_in_batches_run
  cases argcOk <;> cases msgFileExists <;> simp
  split_ifs <;> simp_all
  all_goals try tauto
  all_goals
    intro hle hdel
    have hnl := Nat.not_lt.mpr hle
    tauto

/-- Counterexample for C5: a concrete batch-mode run (two 40 MB adds plus
one deletion) in which every staging succeeds but every commit and push
fails — the planned batch's commit_batch result is a failure — still
exits with status 0, where the claim requires status 1 for a run that
completes with unresolved command failures. -/
theorem batch_mode_failure_exits_zero :
    (∀ b ∈ commit_in_batches_plan
        [⟨["a", "x"], 40 * 1024 * 1024⟩, ⟨["b", "y"], 40 * 1024 * 1024⟩]
        (scan_and_categorize
          [⟨["a", "x"], 40 * 1024 * 1024⟩, ⟨["b", "y"], 40 * 1024 * 1024⟩]
          [["a", "x"], ["b", "y"]] [["c", "gone"]]).1
        (scan_and_categorize
          [⟨["a", "x"], 40 * 1024 * 1024⟩, ⟨["b", "y"], 40 * 1024 * 1024⟩]
          [["a", "x"], ["b", "y"]] [["c", "gone"]]).2.2
        [["a"], ["b"], ["c"]],
      (commit_batch
        [⟨["a", "x"], 40 * 1024 * 1024⟩, ⟨["b", "y"], 40 * 1024 * 1024⟩]
        ⟨fun _ => true, fun _ => true, false, false⟩ b.adds b.dels).ok = false) ∧
    commit_in_batches_plan
        [⟨["a", "x"], 40 * 1024 * 1024⟩, ⟨["b", "y"], 40 * 1024 * 1024⟩]
        (scan_and_categorize
          [⟨["a", "x"], 40 * 1024 * 1024⟩, ⟨["b", "y"], 40 * 1024 * 1024⟩]
          [["a", "x"], ["b", "y"]] [["c", "gone"]]).1
        (scan_and_categorize
          [⟨["a", "x"], 40 * 1024 * 1024⟩, ⟨["b", "y"], 40 * 1024 * 1024⟩]
          [["a", "x"], ["b", "y"]] [["c", "gone"]]).2.2
        [["a"], ["b"], ["c"]] ≠ [] ∧
    mainExitCode true true
      [⟨["a", "x"], 40 * 1024 * 1024⟩, ⟨["b", "y"], 40 * 1024 * 1024⟩]
      (fun _ => ⟨fun _ => true, fun _ => true, false, false⟩) false
      [["a", "x"], ["b", "y"]] [["c", "gone"]] [["a"], ["b"], ["c"]] = 0 := by
  refine ⟨by decide, by decide, by decide⟩

/-! ## Claim C8: the file splitter -/

theorem splitChunks_flatten {α : Type} (c : Nat) :
    ∀ (n : Nat) (l : List α), l.length ≤ n →
      (splitChunks (c + 1) l).flatten = l := by
  intro n
  induction n with
  | zero =>
    intro l hl
    have : l = [] := List.length_eq_zero.mp (Nat.le_zero.mp hl)
    subst this
    simp [splitChunks]
  | succ n ih =>
    intro l hl
    match l with
    | [] => simp [splitChunks]
    | x :: rest =>
      rw [splitChunks]
      have hdrop : ((x :: rest).drop (c + 1)).length ≤ n := by
        simp only [List.length_drop, List.length_cons] at *
        omega
      simp only [List.flatten_cons, ih _ hdrop, List.take_append_drop]

theorem splitChunks_length {α : Type} (c : Nat) :
    ∀ (n : Nat) (l : List α), l.length ≤ n →
      (splitChunks (c + 1) l).length = (l.length + c) / (c + 1) := by
  intro n
  induction n with
  | zero =>
    intro l hl
    have : l = [] := List.length_eq_zero.mp (Nat.le_zero.mp hl)
    subst this
    simp [splitChunks, Nat.div_eq_of_lt (Nat.lt_succ_self c)]
  | succ n ih =>
    intro l hl
    match l with
    | [] => simp [splitChunks, Nat.div_eq_of_lt (Nat.lt_succ_self c)]
    | x :: rest =>
      rw [splitChunks]
      have hdrop : ((x :: rest).drop (c + 1)).length ≤ n := by
        simp only [List.length_drop, List.length_cons] at *
        omega
      rw [List.length_cons, ih _ hdrop]
      simp only [List.length_drop, List.length_cons]
      rcases Nat.lt_or_ge (rest.length + 1) (c + 1) with hlt | hge
      · have h1 : rest.length + 1 - (c + 1) = 0 := by omega
        rw [h1]
        have h2 : c / (c + 1) = 0 := Nat.div_eq_of_lt (Nat.lt_succ_self c)
        rw [Nat.zero_add, h2]
        have h3 : (rest.length + 1 + c) / (c + 1) = 1 := by
          apply Nat.div_eq_of_lt_le <;> simp <;> omega
        omega
      · have h1 : rest.length + 1 - (c + 1) + c = rest.length := by omega
        have h2 : rest.length + 1 + c = rest.length + (c + 1) := by omega
        rw [h1, h2, Nat.add_div_right _ (Nat.succ_pos c)]

theorem splitChunks_le {α : Type} (c : Nat) :
    ∀ (n : Nat) (l : List α), l.length ≤ n →
      ∀ ch ∈ splitChunks (c + 1) l, ch.length ≤ c + 1 := by
  intro n
  induction n with
  | zero =>
    intro l hl
    have : l = [] := List.length_eq_zero.mp (Nat.le_zero.mp hl)
    subst this
    simp [splitChunks]
  | succ n ih =>
    intro l hl
    match l with
    | [] => simp [splitChunks]
    | x :: rest =>
      rw [splitChunks]
      intro ch hch
      rcases List.mem_cons.mp hch with h | h
      · subst h
        exact List.length_take_le (c + 1) (x :: rest)
      · have hdrop : ((x :: rest).drop (c + 1)).length ≤ n := by
          simp only [List.length_drop, List.length_cons] at *
          omega
        exact ih _ hdrop ch h

/-- C8.  For chunk size c > 0, split_large_file produces exactly
⌈n/c⌉ parts from an n-byte file, each part at most c bytes, whose
in-order concatenation equals the original content, and the i-th part
(1-based) is named base ++ ext ++ "-part" ++ the 4-digit zero-padded
number i. -/
theorem split_manifest_spec {α : Type} (c : Nat) (hc : 0 < c)
    (baseName fileExt : String) (content : List α) :
    (split_large_file c baseName fileExt content).length =
      (content.length + c - 1) / c ∧
    (∀ pr ∈ split_large_file c baseName fileExt content, pr.2.length ≤ c) ∧
    ((split_large_file c baseName fileExt content).map
      (fun pr => pr.2)).flatten = content ∧
    ∀ (i : Nat) (h : i < (split_large_file c baseName fileExt content).length),
      ((split_large_file c baseName fileExt content)[i]).1 =
        baseName ++ fileExt ++ "-part" ++ pad4 (i + 1) := by
  obtain ⟨c, rfl⟩ : ∃ k, c = k + 1 := ⟨c - 1, by omega⟩
  unfold split_large_file
  refine ⟨?_, ?_, ?_, ?_⟩
  · rw [List.length_map, List.enum_length, splitChunks_length c content.length
      content le_rfl]
    have he : content.length + (c + 1) - 1 = content.length + c := by omega
    rw [he]
  · intro pr hpr
    rcases List.mem_map.mp hpr with ⟨e, he, rfl⟩
    have : e.2 ∈ splitChunks (c + 1) content := by
      have := List.mem_map_of_mem Prod.snd he
      rwa [List.enum_map_snd] at this
    exact splitChunks_le c content.length content le_rfl _ this
  · rw [List.map_map]
    have : ((fun pr : String × List α => pr.2) ∘
        fun e : Nat × List α =>
          (baseName ++ fileExt ++ "-part" ++ pad4 (e.1 + 1), e.2)) =
        Prod.snd := rfl
    rw [this, List.enum_map_snd]
    exact splitChunks_flatten c content.length content le_rfl
  · intro i h
    rw [List.getElem_map, List.getElem_enum]

/-- Witness for C8: splitting a five-byte file with chunk size 2 yields
⌈5/2⌉ = 3 parts. -/
theorem split_manifest_spec_witness :
    (split_large_file 2 "blob" ".bin" [1, 2, 3, 4, 5]).length = (5 + 2 - 1) / 2 :=
  (split_manifest_spec 2 (by decide) "blob" ".bin" [1, 2, 3, 4, 5]).1

/-! ## Claim C7: porcelain status-line classification -/

theorem mem_dropWhile_of_mem {α : Type} {p : α → Bool} {x : α} :
    ∀ {l : List α}, x ∈ l → p x = false → x ∈ l.dropWhile p := by
  intro l
  induction l with
  | nil => intro h; exact absurd h (List.not_mem_nil x)
  | cons c t ih =>
    intro hx hpx
    rw [List.dropWhile_cons]
    split
    · rcases List.mem_cons.mp hx with rfl | hx1
      · simp_all
      · exact ih hx1 hpx
    · exact hx

theorem mem_pyStrip_of_mem {x : Char} {l : List Char} (hx : x ∈ l)
    (hpx : pyIsSpace x = false) : x ∈ pyStrip l := by
  unfold pyStrip
  rw [List.mem_reverse]
  exact mem_dropWhile_of_mem
    (by rw [List.mem_reverse]; exact mem_dropWhile_of_mem hx hpx) hpx

theorem mem_of_mem_pyStrip {x : Char} {l : List Char}
    (hx : x ∈ pyStrip l) : x ∈ l := by
  unfold pyStrip at hx
  rw [List.mem_reverse] at hx
  have h1 := List.Sublist.mem hx (List.dropWhile_sublist pyIsSpace)
  rw [List.mem_reverse] at h1
  exact List.Sublist.mem h1 (List.dropWhile_sublist pyIsSpace)

/-- Stripping the two-character status code does not change whether it
contains the non-whitespace letter D. -/
theorem pyStrip_contains_D (l : List Char) :
    (pyStrip l).contains 'D' = l.contains 'D' := by
  rw [Bool.eq_iff_iff]
  constructor
  · intro h
    exact List.elem_iff.mpr (mem_of_mem_pyStrip (List.elem_iff.mp h))
  · intro h
    exact List.elem_iff.mpr
      (mem_pyStrip_of_mem (List.elem_iff.mp h) (by decide))

theorem dropWhile_head_false {α : Type} {p : α → Bool} {c : α} {t : List α}
    (h : List.dropWhile p (c :: t) = c :: t) : p c = false := by
  by_contra hpc
  rw [List.dropWhile_cons, if_pos (by simpa using hpc)] at h
  have := congrArg List.length h
  have hle := (@List.dropWhile_sublist _ t p).length_le
  simp at this
  omega

/-- A list that dropWhile leaves unchanged stays unchanged when material
is appended to its right. -/
theorem dropWhile_append_of_self {α : Type} {p : α → Bool} {l : List α}
    (hne : l ≠ []) (h : List.dropWhile p l = l) (t : List α) :
    List.dropWhile p (l ++ t) = l ++ t := by
  match l with
  | [] => exact absurd rfl hne
  | c :: l1 =>
    have hpc := dropWhile_head_false h
    rw [List.cons_append, List.dropWhile_cons, if_neg (by simp [hpc])]

/-- A list fixed by pyStrip is fixed by dropWhile on both ends. -/
theorem pyStrip_self_parts {l : List Char} (h : pyStrip l = l) :
    List.dropWhile pyIsSpace l = l ∧
      List.dropWhile pyIsSpace l.reverse = l.reverse := by
  have h1 : (List.dropWhile pyIsSpace l).length ≤ l.length :=
    (List.dropWhile_sublist pyIsSpace).length_le
  have h2 : (List.dropWhile pyIsSpace
      (List.dropWhile pyIsSpace l).reverse).length ≤
      (List.dropWhile pyIsSpace l).length := by
    have h3 := (@List.dropWhile_sublist _
      (List.dropWhile pyIsSpace l).reverse pyIsSpace).length_le
    simpa using h3
  have hlen := congrArg List.length h
  unfold pyStrip at hlen
  simp only [List.length_reverse] at hlen
  have hl1 : (List.dropWhile pyIsSpace l).length = l.length := by omega
  have hfix1 : List.dropWhile pyIsSpace l = l :=
    (List.dropWhile_suffix pyIsSpace).eq_of_length hl1
  refine ⟨hfix1, ?_⟩
  rw [hfix1] at hlen
  have hl2 : (List.dropWhile pyIsSpace l.reverse).length = l.reverse.length := by
    simpa using hlen
  exact (List.dropWhile_suffix pyIsSpace).eq_of_length hl2

theorem pyStrip_nil_of_all_space {l : List Char}
    (h : ∀ c ∈ l, pyIsSpace c = true) : pyStrip l = [] := by
  unfold pyStrip
  rw [List.dropWhile_eq_nil_iff.mpr h]
  simp

/-- A line containing a non-whitespace character does not strip to the
empty list. -/
theorem pyStrip_ne_nil {l : List Char} {c : Char} (hc : c ∈ l)
    (hcs : pyIsSpace c = false) : pyStrip l ≠ [] := by
  intro hnil
  have := mem_pyStrip_of_mem hc hcs
  rw [hnil] at this
  exact absurd this (List.not_mem_nil c)

theorem hasArrow_of_isPre {l : List Char}
    (h : arrowSep.isPrefixOf l = true) : hasArrow l = true := by
  match l with
  | [] => simp [arrowSep, List.isPrefixOf] at h
  | c :: t =>
    rw [hasArrow]
    simp [h]

theorem hasArrow_append_arrowSep (a b : List Char) :
    hasArrow (a ++ arrowSep ++ b) = true := by
  induction a with
  | nil =>
    rw [List.nil_append]
    apply hasArrow_of_isPre
    show List.isPrefixOf (' ' :: '-' :: '>' :: ' ' :: []) (arrowSep ++ b) = true
    rw [show arrowSep ++ b = ' ' :: '-' :: '>' :: ' ' :: b from rfl]
    simp [List.isPrefixOf]
  | cons c a1 ih =>
    rw [List.cons_append, List.cons_append, hasArrow, ih]
    simp

theorem pySplitArrow_of_no_arrow :
    ∀ {l : List Char}, hasArrow l = false → pySplitArrow l = [l] := by
  intro l
  induction l with
  | nil => intro _; rw [pySplitArrow]
  | cons c t ih =>
    intro h
    rw [hasArrow] at h
    rcases Bool.or_eq_false_iff.mp h with ⟨h1, h2⟩
    rw [pySplitArrow, if_neg (by simp [h1]), ih h2]

theorem pySplitArrow_append (b : List Char) :
    ∀ (a : List Char),
      (∀ i < a.length,
        arrowSep.isPrefixOf ((a ++ arrowSep ++ b).drop i) = false) →
      pySplitArrow (a ++ arrowSep ++ b) = a :: pySplitArrow b := by
  intro a
  induction a with
  | nil =>
    intro _
    rw [List.nil_append]
    show pySplitArrow (' ' :: '-' :: '>' :: ' ' :: b) = [] :: pySplitArrow b
    rw [pySplitArrow]
    rw [if_pos (by simp [arrowSep, List.isPrefixOf])]
    have hd : (' ' :: '-' :: '>' :: ' ' :: b).drop arrowSep.length = b := rfl
    rw [hd]
  | cons c a1 ih =>
    intro hno
    have h0 : arrowSep.isPrefixOf ((c :: a1 ++ arrowSep ++ b).drop 0) = false :=
      hno 0 (by simp)
    rw [List.drop_zero] at h0
    rw [List.cons_append, List.cons_append] at h0 ⊢
    rw [pySplitArrow, if_neg (by rw [h0]; exact Bool.false_ne_true)]
    have ih1 := ih (fun i hi => by
      have h2 := hno (i + 1) (by simpa using Nat.succ_lt_succ hi)
      rw [List.cons_append, List.cons_append] at h2
      simpa using h2)
    rw [ih1]

/-- C7.  A porcelain line with two status characters, one separating
space and a well-formed path (and, in the rename form, a well-formed
" -> "-separated source and destination whose first arrow occurrence is
the separator) is classified Deleted exactly when the two-character
status code contains D, and a rename is recorded at the destination path
only.  Well-formed means: nonempty, no surrounding whitespace, no double
quotes, and no embedded rename arrow. -/
theorem status_line_classification (x y : Char) (old new : List Char)
    (hold1 : old ≠ []) (hold2 : pyStrip old = old)
    (hold3 : ∀ c ∈ old, c ≠ '"') (hold4 : hasArrow old = false)
    (hnew1 : new ≠ []) (hnew2 : pyStrip new = new)
    (hnew3 : ∀ c ∈ new, c ≠ '"') (hnew4 : hasArrow new = false)
    (hov : ∀ i < old.length,
      arrowSep.isPrefixOf ((old ++ arrowSep ++ new).drop i) = false) :
    parseStatusLine ([x, y, ' '] ++ old) =
      some (([x, y]).contains 'D', old) ∧
    parseStatusLine ([x, y, ' '] ++ (old ++ arrowSep ++ new)) =
      some (([x, y]).contains 'D', new) := by
  obtain ⟨co, hco, hcos⟩ : ∃ c ∈ old, pyIsSpace c = false := by
    by_contra hall
    push_neg at hall
    have hs0 : pyStrip old = [] :=
      pyStrip_nil_of_all_space (fun c hc => by
        have h1 := hall c hc
        revert h1
        cases h : pyIsSpace c <;> simp)
    rw [hold2] at hs0
    exact hold1 hs0
  have hquotes_old : pyRemoveQuotes old = old := by
    unfold pyRemoveQuotes
    exact List.filter_eq_self.mpr (fun c hc => by
      have h1 := hold3 c hc
      simpa using h1)
  constructor
  · unfold parseStatusLine
    rw [if_neg]
    · have htake : ([x, y, ' '] ++ old).take 2 = [x, y] := rfl
      have hdrop : ([x, y, ' '] ++ old).drop 3 = old := rfl
      rw [htake, hdrop, hold2, hquotes_old]
      simp only [hold4, Bool.false_eq_true, if_false]
      rw [pyStrip_contains_D]
    · exact pyStrip_ne_nil (by simp [hco]) hcos
  · obtain ⟨hodw, _⟩ := pyStrip_self_parts hold2
    obtain ⟨_, hndw⟩ := pyStrip_self_parts hnew2
    have harrstrip : pyStrip (old ++ arrowSep ++ new) =
        old ++ arrowSep ++ new := by
      unfold pyStrip
      rw [List.append_assoc,
        dropWhile_append_of_self hold1 hodw (arrowSep ++ new),
        List.reverse_append, List.reverse_append, List.append_assoc,
        dropWhile_append_of_self (by simpa using hnew1) hndw
          (arrowSep.reverse ++ old.reverse)]
      simp [List.reverse_append]
    have hquotes_all : pyRemoveQuotes (old ++ arrowSep ++ new) =
        old ++ arrowSep ++ new := by
      unfold pyRemoveQuotes
      apply List.filter_eq_self.mpr
      intro c hc
      simp only [List.append_assoc, List.mem_append] at hc
      have harrq : ∀ c ∈ arrowSep, (c != '"') = true := by decide
      rcases hc with hc | hc | hc
      · simpa using hold3 c hc
      · exact harrq c hc
      · simpa using hnew3 c hc
    unfold parseStatusLine
    rw [if_neg]
    · have htake : ([x, y, ' '] ++ (old ++ arrowSep ++ new)).take 2 = [x, y] := rfl
      have hdrop : ([x, y, ' '] ++ (old ++ arrowSep ++ new)).drop 3 =
        old ++ arrowSep ++ new := rfl
      rw [htake, hdrop, harrstrip, hquotes_all]
      simp only [hasArrow_append_arrowSep old new, if_true,
        pySplitArrow_append new old hov, pySplitArrow_of_no_arrow hnew4,
        List.drop_succ_cons, List.drop_zero, List.headD_cons,
        pyStrip_contains_D]
    · exact pyStrip_ne_nil (by simp [hco]) hcos

/-- Witness for C7: the rename line "R  a -> b" parses to an Added entry
at the destination path b. -/
theorem status_line_classification_witness :
    parseStatusLine (['R', ' ', ' '] ++ (['a'] ++ arrowSep ++ ['b'])) =
      some ((['R', ' ']).contains 'D', ['b']) :=
  (status_line_classification 'R' ' ' ['a'] ['b'] (by decide) (by decide)
    (by decide) (by decide) (by decide) (by decide) (by decide) (by decide)
    (by decide)).2

/-! ## Concrete planning scenarios

Each scenario lists the working tree, the git-status add and delete
lists, and a valid iteration order for the planner's all_dirs set; the
files_dict and deleted_files_by_dir inputs of the planner are computed by
the embedded scan_and_categorize itself, so the scenario exercises the
real pipeline. -/

/-- Scenario "nested": a 40 MB file a/x under a collapsed directory a and
a 50 MB file a/b/y under the collapsed child directory a/b, plus one
deletion under c forcing batch mode. -/
def fsNested : FS :=
  [⟨["a", "x"], 40 * 1024 * 1024⟩, ⟨["a", "b", "y"], 50 * 1024 * 1024⟩]

def invNested : List (Path × Nat) × List Path × List (Path × List Path) :=
  scan_and_categorize fsNested [["a", "x"], ["a", "b", "y"]] [["c", "gone"]]

def planNested : List Batch :=
  commit_in_batches_plan fsNested invNested.1 invNested.2.2
    [["a", "b"], ["a"], ["c"]]

/-- Scenario "wide": 30 MB a/x plus 50 MB a/b/y and 50 MB a/c/z; every
directory collapses (each is at most 50 MB), but the parent directory a
re-walks to 130 MB in the planner and triggers the oversized-directory
handling. -/
def fsWide : FS :=
  [⟨["a", "x"], 30 * 1024 * 1024⟩, ⟨["a", "b", "y"], 50 * 1024 * 1024⟩,
    ⟨["a", "c", "z"], 50 * 1024 * 1024⟩]

def invWide : List (Path × Nat) × List Path × List (Path × List Path) :=
  scan_and_categorize fsWide [["a", "x"], ["a", "b", "y"], ["a", "c", "z"]] []

def planWide : List Batch :=
  commit_in_batches_plan fsWide invWide.1 invWide.2.2
    [["a", "b"], ["a", "c"], ["a"]]

/-- Scenario "two": two 40 MB files under sibling directories a and b of
equal depth, plus one deletion under c forcing batch mode. -/
def fsTwo : FS :=
  [⟨["a", "x"], 40 * 1024 * 1024⟩, ⟨["b", "y"], 40 * 1024 * 1024⟩]

def invTwo : List (Path × Nat) × List Path × List (Path × List Path) :=
  scan_and_categorize fsTwo [["a", "x"], ["b", "y"]] [["c", "gone"]]

/-! ## Claim C1: batch union and disjointness -/

/-- C1.  On the nested scenario the pipeline violates the claimed
invariant: the iteration order is a valid order of the planner's all_dirs
set, yet the collapsed child's file a/b/y is planned in two distinct
batches, because the planner re-walks the collapsed parent directory a on
the live tree and gathers the child's file again (source lines 325-332)
after the child's own batch already contains it. -/
theorem planner_duplicates_collapsed_child_file :
    validIter invNested.1 invNested.2.2 [["a", "b"], ["a"], ["c"]] ∧
    (planNested.filter (fun b => b.adds.contains ["a", "b", "y"])).length = 2 := by
  constructor
  · refine ⟨by decide, ?_, ?_, ?_⟩ <;> decide
  · decide

/-! ## Claim C2: the 100 MB ceiling and oversized units -/

/-- Counterexample for C2.  On the wide scenario the oversized directory
a (130 MB when re-walked) is not split into greedy disjoint batches of at
most 100 MB: the planner emits one batch holding all three of its files
at 130 MB, and then re-emits those files again, so its member a/x occurs
in two batches — the excess is not isolated to the dedicated batch and
the greedy partition the claim describes does not happen. -/
theorem oversized_dir_not_greedily_partitioned :
    validIter invWide.1 invWide.2.2 [["a", "b"], ["a", "c"], ["a"]] ∧
    (planWide.countP (fun b => decide (mb100 < b.size))) = 1 ∧
    (planWide.filter (fun b => b.adds.contains ["a", "x"])).length = 2 := by
  refine ⟨⟨by decide, ?_, ?_, ?_⟩, by decide, by decide⟩ <;> decide

/-! ## Claim C6: planning determinism -/

/-- Counterexample for C6.  The planner's output depends on the iteration
order of the Python set all_dirs: the two orders below are both valid
iteration orders of the same key set (the source sorts the set only by
separator count, so equal-depth directories keep set order), yet they
produce different ordered batch sequences. -/
theorem plan_depends_on_set_iteration_order :
    validIter invTwo.1 invTwo.2.2 [["a"], ["b"], ["c"]] ∧
    validIter invTwo.1 invTwo.2.2 [["b"], ["a"], ["c"]] ∧
    commit_in_batches_plan fsTwo invTwo.1 invTwo.2.2 [["a"], ["b"], ["c"]] ≠
      commit_in_batches_plan fsTwo invTwo.1 invTwo.2.2 [["b"], ["a"], ["c"]] := by
  refine ⟨⟨by decide, ?_, ?_, ?_⟩, ⟨by decide, ?_, ?_, ?_⟩, by decide⟩ <;> decide

/-- The add paths one sorted_dirs entry contributes to the whole plan:
its gathered files, followed, for an oversized unit, by the re-emitted
files of at most 100 MB from the inner splitting loop. -/
def unitAddContribution (fs : FS) (fd : List (Path × Nat)) (d : Path) :
    List Path :=
  (dirUnit fs fd d).1 ++
    (if mb100 < (dirUnit fs fd d).2 then
      (dirUnit fs fd d).1.filter (fun fp => get_file_size_mb fs fp ≤ mb100)
    else [])

/-- All add paths committed so far by a planning state, closed batches
first, then the open batch. -/
def planJoinedAdds (s : PlanState) : List Path :=
  s.batches.flatMap Batch.adds ++ s.cur

/-- All delete paths committed so far by a planning state. -/
def planJoinedDels (s : PlanState) : List Path :=
  s.batches.flatMap Batch.dels ++ s.curDel

theorem planJoinedAdds_flush (s : PlanState) :
    planJoinedAdds (flushState s) = planJoinedAdds s := by
  simp [planJoinedAdds, flushState]

theorem planJoinedDels_flush (s : PlanState) :
    planJoinedDels (flushState s) = planJoinedDels s := by
  simp [planJoinedDels, flushState]

theorem planInnerStep_joined (fs : FS) (t : PlanState) (fp : Path) :
    planJoinedAdds (planInnerStep fs t fp) =
      planJoinedAdds t ++
        (if get_file_size_mb fs fp ≤ mb100 then [fp] else []) ∧
    planJoinedDels (planInnerStep fs t fp) = planJoinedDels t := by
  simp only [planInnerStep]
  split_ifs with h1 h2
  · constructor <;> simp [planJoinedAdds, planJoinedDels, flushState]
  · constructor <;> simp [planJoinedAdds, planJoinedDels]
  · constructor <;> simp [planJoinedAdds, planJoinedDels]

theorem planInner_fold_joined (fs : FS) :
    ∀ (files : List Path) (t : PlanState),
      planJoinedAdds (files.foldl (planInnerStep fs) t) =
        planJoinedAdds t ++
          files.filter (fun fp => get_file_size_mb fs fp ≤ mb100) ∧
      planJoinedDels (files.foldl (planInnerStep fs) t) =
        planJoinedDels t := by
  intro files
  induction files with
  | nil => intro t; simp
  | cons fp rest ih =>
    intro t
    rw [List.foldl_cons]
    obtain ⟨ha, hd⟩ := ih (planInnerStep fs t fp)
    obtain ⟨ha1, hd1⟩ := planInnerStep_joined fs t fp
    refine ⟨?_, by rw [hd, hd1]⟩
    rw [ha, ha1, List.filter_cons]
    by_cases h : get_file_size_mb fs fp ≤ mb100 <;> simp [h]

theorem planDirStep_joined (fs : FS) (fd : List (Path × Nat))
    (dbd : List (Path × List Path)) (s : PlanState) (d : Path) :
    planJoinedAdds (planDirStep fs fd dbd s d) =
      planJoinedAdds s ++ unitAddContribution fs fd d ∧
    planJoinedDels (planDirStep fs fd dbd s d) =
      planJoinedDels s ++ (alistGet? dbd d).getD [] := by
  have hs1a : ∀ s' : PlanState,
      planJoinedAdds { s' with
        cur := s'.cur ++ (dirUnit fs fd d).1,
        curDel := s'.curDel ++ (alistGet? dbd d).getD [],
        curSize := s'.curSize + (dirUnit fs fd d).2 } =
      planJoinedAdds s' ++ (dirUnit fs fd d).1 := by
    intro s'
    simp [planJoinedAdds]
  have hs1d : ∀ s' : PlanState,
      planJoinedDels { s' with
        cur := s'.cur ++ (dirUnit fs fd d).1,
        curDel := s'.curDel ++ (alistGet? dbd d).getD [],
        curSize := s'.curSize + (dirUnit fs fd d).2 } =
      planJoinedDels s' ++ (alistGet? dbd d).getD [] := by
    intro s'
    simp [planJoinedDels]
  by_cases hover : (dirUnit fs fd d).2 > mb100 <;>
    by_cases hflush : s.curSize + (dirUnit fs fd d).2 > mb100 ∧
      (s.cur ≠ [] ∨ s.curDel ≠ [])
  · simp only [planDirStep, unitAddContribution, if_pos hover, if_pos hflush]
    constructor
    · rw [(planInner_fold_joined fs (dirUnit fs fd d).1 _).1,
        hs1a (flushState s), planJoinedAdds_flush]
      simp
    · rw [(planInner_fold_joined fs (dirUnit fs fd d).1 _).2,
        hs1d (flushState s), planJoinedDels_flush]
  · simp only [planDirStep, unitAddContribution, if_pos hover, if_neg hflush]
    constructor
    · rw [(planInner_fold_joined fs (dirUnit fs fd d).1 _).1, hs1a s]
      simp
    · rw [(planInner_fold_joined fs (dirUnit fs fd d).1 _).2, hs1d s]
  · simp only [planDirStep, unitAddContribution, if_neg hover, if_pos hflush]
    constructor
    · rw [hs1a (flushState s), planJoinedAdds_flush]
      simp
    · rw [hs1d (flushState s), planJoinedDels_flush]
  · simp only [planDirStep, unitAddContribution, if_neg hover, if_neg hflush]
    constructor
    · rw [hs1a s]
      simp
    · rw [hs1d s]

theorem plan_fold_joined (fs : FS) (fd : List (Path × Nat))
    (dbd : List (Path × List Path)) :
    ∀ (ds : List Path) (s : PlanState),
      planJoinedAdds (ds.foldl (planDirStep fs fd dbd) s) =
        planJoinedAdds s ++ ds.flatMap (unitAddContribution fs fd) ∧
      planJoinedDels (ds.foldl (planDirStep fs fd dbd) s) =
        planJoinedDels s ++ ds.flatMap (fun d => (alistGet? dbd d).getD []) := by
  intro ds
  induction ds with
  | nil => intro s; simp
  | cons d rest ih =>
    intro s
    rw [List.foldl_cons]
    obtain ⟨ha, hd⟩ := ih (planDirStep fs fd dbd s d)
    obtain ⟨ha1, hd1⟩ := planDirStep_joined fs fd dbd s d
    rw [List.flatMap_cons, List.flatMap_cons, ha, hd, ha1, hd1]
    constructor <;> simp

/-- The concatenated add and delete paths of the whole plan equal the
per-directory contributions in sorted order. -/
theorem plan_flatMap_eq (fs : FS) (fd : List (Path × Nat))
    (dbd : List (Path × List Path)) (it : List Path) :
    (commit_in_batches_plan fs fd dbd it).flatMap Batch.adds =
      (sortDirsDesc it).flatMap
        (unitAddContribution fs (extendFilesDict fd dbd)) ∧
    (commit_in_batches_plan fs fd dbd it).flatMap Batch.dels =
      (sortDirsDesc it).flatMap (fun d => (alistGet? dbd d).getD []) := by
  obtain ⟨ha, hd⟩ := plan_fold_joined fs (extendFilesDict fd dbd) dbd
    (sortDirsDesc it) ⟨[], [], [], 0⟩
  have hinit_a : planJoinedAdds (⟨[], [], [], 0⟩ : PlanState) = [] := rfl
  have hinit_d : planJoinedDels (⟨[], [], [], 0⟩ : PlanState) = [] := rfl
  rw [hinit_a] at ha
  rw [hinit_d] at hd
  rw [List.nil_append] at ha hd
  simp only [commit_in_batches_plan]
  set sf := (sortDirsDesc it).foldl
    (planDirStep fs (extendFilesDict fd dbd) dbd) ⟨[], [], [], 0⟩ with hsf
  by_cases h : sf.cur ≠ [] ∨ sf.curDel ≠ []
  · rw [if_pos h]
    constructor
    · rw [← ha]
      simp [planJoinedAdds]
    · rw [← hd]
      simp [planJoinedDels]
  · rw [if_neg h]
    push_neg at h
    constructor
    · rw [← ha]
      simp [planJoinedAdds, h.1]
    · rw [← hd]
      simp [planJoinedDels, h.2]

/-- C6 (amended).  For a fixed inventory the planner is a pure function
of the set-iteration order; across any two iteration orders that are
permutations of one another (as any two iteration orders of the same set
are), the planned add paths agree up to permutation and the planned
delete paths agree up to permutation, although batch boundaries and
order may differ. -/
theorem plan_content_iteration_invariant (fs : FS) (fd : List (Path × Nat))
    (dbd : List (Path × List Path)) (it1 it2 : List Path)
    (h : it1.Perm it2) :
    ((commit_in_batches_plan fs fd dbd it1).flatMap Batch.adds).Perm
      ((commit_in_batches_plan fs fd dbd it2).flatMap Batch.adds) ∧
    ((commit_in_batches_plan fs fd dbd it1).flatMap Batch.dels).Perm
      ((commit_in_batches_plan fs fd dbd it2).flatMap Batch.dels) := by
  have hperm : (sortDirsDesc it1).Perm (sortDirsDesc it2) :=
    ((List.perm_insertionSort depthGE it1).trans h).trans
      (List.perm_insertionSort depthGE it2).symm
  obtain ⟨ha1, hd1⟩ := plan_flatMap_eq fs fd dbd it1
  obtain ⟨ha2, hd2⟩ := plan_flatMap_eq fs fd dbd it2
  rw [ha1, ha2, hd1, hd2]
  exact ⟨List.Perm.flatMap_right _ hperm, List.Perm.flatMap_right _ hperm⟩

/-- Witness for C6's amended theorem: on the "two" scenario, the two
valid iteration orders yield plans with permutation-equal add paths. -/
theorem plan_content_iteration_invariant_witness :
    ((commit_in_batches_plan fsTwo invTwo.1 invTwo.2.2
        [["a"], ["b"], ["c"]]).flatMap Batch.adds).Perm
      ((commit_in_batches_plan fsTwo invTwo.1 invTwo.2.2
        [["b"], ["a"], ["c"]]).flatMap Batch.adds) :=
  (plan_content_iteration_invariant fsTwo invTwo.1 invTwo.2.2
    [["a"], ["b"], ["c"]] [["b"], ["a"], ["c"]] (by decide)).1

/-! ## The 100 MB ceiling invariant (amended C2) -/

theorem walkGather_fold_nil (fs : FS) :
    ∀ (l : List FSFile) (acc : List Path × Nat),
      (l.foldl (walkGather fs) acc).1 = [] →
        l.foldl (walkGather fs) acc = acc ∧ acc.1 = [] := by
  intro l
  induction l with
  | nil =>
    intro acc h
    exact ⟨rfl, h⟩
  | cons f t ih =>
    intro acc h
    rw [List.foldl_cons] at h ⊢
    unfold walkGather at h ⊢
    split_ifs at h ⊢ with hex
    · obtain ⟨_, habs⟩ := ih _ h
      simp at habs
    · exact ih acc h

/-- A unit that gathered no files has size 0. -/
theorem dirUnit_fst_nil (fs : FS) (fd : List (Path × Nat)) (d : Path)
    (h : (dirUnit fs fd d).1 = []) : (dirUnit fs fd d).2 = 0 := by
  unfold dirUnit at h ⊢
  split_ifs at h ⊢ with h1 h2 h3
  · obtain ⟨heq, _⟩ := walkGather_fold_nil fs (walkFiles fs d) ([], 0) h
    rw [heq]
  all_goals simp_all

/-- A batch respects the (amended) ceiling policy: it is at most 100 MB,
or it is the dedicated batch of a single oversized unit — its adds are
exactly that unit's gathered files, its deletions exactly that
directory's deletions, and its size the unit's full size. -/
def GoodBatch (fs : FS) (fd : List (Path × Nat))
    (dbd : List (Path × List Path)) (b : Batch) : Prop :=
  b.size ≤ mb100 ∨
    ∃ d, mb100 < (dirUnit fs fd d).2 ∧ b.adds = (dirUnit fs fd d).1 ∧
      b.dels = (alistGet? dbd d).getD [] ∧ b.size = (dirUnit fs fd d).2

/-- The planning-loop invariant: every closed batch is good, the open
batch is within the ceiling or is exactly one oversized unit, and an
empty open batch has size 0. -/
def StInv (fs : FS) (fd : List (Path × Nat)) (dbd : List (Path × List Path))
    (s : PlanState) : Prop :=
  (∀ b ∈ s.batches, GoodBatch fs fd dbd b) ∧
  (s.curSize ≤ mb100 ∨
    ∃ d, mb100 < (dirUnit fs fd d).2 ∧ s.cur = (dirUnit fs fd d).1 ∧
      s.curDel = (alistGet? dbd d).getD [] ∧
      s.curSize = (dirUnit fs fd d).2) ∧
  (s.cur = [] ∧ s.curDel = [] → s.curSize = 0)

theorem stInv_flush {fs : FS} {fd : List (Path × Nat)}
    {dbd : List (Path × List Path)} {s : PlanState}
    (h : StInv fs fd dbd s) : StInv fs fd dbd (flushState s) := by
  obtain ⟨hb, hcur, _⟩ := h
  refine ⟨?_, Or.inl (Nat.zero_le _), fun _ => rfl⟩
  intro b hbmem
  simp only [flushState] at hbmem
  rcases List.mem_append.mp hbmem with h1 | h1
  · exact hb b h1
  · have hbeq : b = ⟨s.cur, s.curDel, s.curSize⟩ := by simpa using h1
    subst hbeq
    rcases hcur with h2 | ⟨d, hd1, hd2, hd3, hd4⟩
    · exact Or.inl h2
    · exact Or.inr ⟨d, hd1, hd2, hd3, hd4⟩

theorem stInv_innerStep {fs : FS} {fd : List (Path × Nat)}
    {dbd : List (Path × List Path)} {s : PlanState} (fp : Path)
    (h : StInv fs fd dbd s) : StInv fs fd dbd (planInnerStep fs s fp) := by
  simp only [planInnerStep]
  split_ifs with h1 h2
  · have hf := stInv_flush h
    refine ⟨hf.1, Or.inl ?_, by simp⟩
    simpa [flushState] using h1
  · refine ⟨h.1, Or.inl ?_, by simp⟩
    by_cases hc : s.curSize + get_file_size_mb fs fp ≤ mb100
    · exact hc
    · have hem : s.cur = [] ∧ s.curDel = [] := by
        rcases not_and_or.mp h2 with h3 | h3
        · omega
        · push_neg at h3
          exact h3
      have hz := h.2.2 hem
      omega
  · exact h

theorem stInv_inner {fs : FS} {fd : List (Path × Nat)}
    {dbd : List (Path × List Path)} (files : List Path) :
    ∀ s : PlanState, StInv fs fd dbd s →
      StInv fs fd dbd (files.foldl (planInnerStep fs) s) := by
  induction files with
  | nil => intro s h; exact h
  | cons fp rest ih =>
    intro s h
    rw [List.foldl_cons]
    exact ih _ (stInv_innerStep fp h)

theorem stInv_dirStep {fs : FS} {fd : List (Path × Nat)}
    {dbd : List (Path × List Path)} {s : PlanState} (d : Path)
    (h : StInv fs fd dbd s) : StInv fs fd dbd (planDirStep fs fd dbd s d) := by
  by_cases hover : (dirUnit fs fd d).2 > mb100 <;>
    by_cases hflush : s.curSize + (dirUnit fs fd d).2 > mb100 ∧
      (s.cur ≠ [] ∨ s.curDel ≠ [])
  · simp only [planDirStep, if_pos hover, if_pos hflush]
    apply stInv_inner
    refine ⟨(stInv_flush h).1, Or.inr ⟨d, hover, ?_, ?_, ?_⟩, ?_⟩
    · simp [flushState]
    · simp [flushState]
    · simp [flushState]
    · intro hem
      have hu1 : (dirUnit fs fd d).1 ≠ [] := by
        intro hnil
        have := dirUnit_fst_nil fs fd d hnil
        omega
      have : (flushState s).cur ++ (dirUnit fs fd d).1 ≠ [] := by
        simp [flushState, hu1]
      exact absurd hem.1 this
  · have hem : s.cur = [] ∧ s.curDel = [] := by
      rcases not_and_or.mp hflush with h3 | h3
      · omega
      · push_neg at h3
        exact h3
    have hz := h.2.2 hem
    simp only [planDirStep, if_pos hover, if_neg hflush]
    apply stInv_inner
    refine ⟨h.1, Or.inr ⟨d, hover, ?_, ?_, ?_⟩, ?_⟩
    · rw [hem.1, List.nil_append]
    · rw [hem.2, List.nil_append]
    · rw [hz, Nat.zero_add]
    · intro hem2
      have hu1 : (dirUnit fs fd d).1 ≠ [] := by
        intro hnil
        have := dirUnit_fst_nil fs fd d hnil
        omega
      rw [hem.1, List.nil_append] at hem2
      exact absurd hem2.1 hu1
  · simp only [planDirStep, if_neg hover, if_pos hflush]
    refine ⟨(stInv_flush h).1, Or.inl ?_, ?_⟩
    · show (flushState s).curSize + (dirUnit fs fd d).2 ≤ mb100
      have hz : (flushState s).curSize = 0 := rfl
      omega
    · intro hem
      have hc1 : (flushState s).cur ++ (dirUnit fs fd d).1 = [] := hem.1
      rw [show (flushState s).cur = [] from rfl, List.nil_append] at hc1
      have hu := dirUnit_fst_nil fs fd d hc1
      show (flushState s).curSize + (dirUnit fs fd d).2 = 0
      have hz : (flushState s).curSize = 0 := rfl
      omega
  · simp only [planDirStep, if_neg hover, if_neg hflush]
    refine ⟨h.1, Or.inl ?_, ?_⟩
    · show s.curSize + (dirUnit fs fd d).2 ≤ mb100
      by_cases hc : s.curSize + (dirUnit fs fd d).2 ≤ mb100
      · exact hc
      · have hem : s.cur = [] ∧ s.curDel = [] := by
          rcases not_and_or.mp hflush with h3 | h3
          · omega
          · push_neg at h3
            exact h3
        have hz := h.2.2 hem
        omega
    · intro hem
      have hc1 : s.cur ++ (dirUnit fs fd d).1 = [] := hem.1
      have hc2 : s.curDel ++ (alistGet? dbd d).getD [] = [] := hem.2
      rcases List.append_eq_nil.mp hc1 with ⟨hc1a, hc1b⟩
      rcases List.append_eq_nil.mp hc2 with ⟨hc2a, hc2b⟩
      have hz := h.2.2 ⟨hc1a, hc2a⟩
      have hu := dirUnit_fst_nil fs fd d hc1b
      show s.curSize + (dirUnit fs fd d).2 = 0
      omega

theorem stInv_foldDirs {fs : FS} {fd : List (Path × Nat)}
    {dbd : List (Path × List Path)} (ds : List Path) :
    ∀ s : PlanState, StInv fs fd dbd s →
      StInv fs fd dbd (ds.foldl (planDirStep fs fd dbd) s) := by
  induction ds with
  | nil => intro s h; exact h
  | cons d rest ih =>
    intro s h
    rw [List.foldl_cons]
    exact ih _ (stInv_dirStep d h)

/-- C2 (amended).  Every planned batch is at most 100 MB, except a
dedicated overflow batch holding exactly the full gathered file list of
one unit whose size exceeds 100 MB (together with exactly that
directory's deletions and that unit's full size); such a unit's files of
at most 100 MB are additionally re-emitted into subsequent greedy
batches, so only the dedicated whole-unit batch carries the excess. -/
theorem batch_ceiling_dedicated_overflow (fs : FS) (fd : List (Path × Nat))
    (dbd : List (Path × List Path)) (it : List Path) :
    ∀ b ∈ commit_in_batches_plan fs fd dbd it,
      b.size ≤ mb100 ∨
        ∃ d, mb100 < (dirUnit fs (extendFilesDict fd dbd) d).2 ∧
          b.adds = (dirUnit fs (extendFilesDict fd dbd) d).1 ∧
          b.dels = (alistGet? dbd d).getD [] ∧
          b.size = (dirUnit fs (extendFilesDict fd dbd) d).2 := by
  intro b hb
  have hinv : StInv fs (extendFilesDict fd dbd) dbd
      ((sortDirsDesc it).foldl
        (planDirStep fs (extendFilesDict fd dbd) dbd) ⟨[], [], [], 0⟩) :=
    stInv_foldDirs (sortDirsDesc it) ⟨[], [], [], 0⟩
      ⟨by simp, Or.inl (Nat.zero_le _), fun _ => rfl⟩
  simp only [commit_in_batches_plan] at hb
  set sf := (sortDirsDesc it).foldl
    (planDirStep fs (extendFilesDict fd dbd) dbd) ⟨[], [], [], 0⟩ with hsf
  by_cases h : sf.cur ≠ [] ∨ sf.curDel ≠ []
  · rw [if_pos h] at hb
    rcases List.mem_append.mp hb with h1 | h1
    · exact hinv.1 b h1
    · have hbeq : b = ⟨sf.cur, sf.curDel, sf.curSize⟩ := by simpa using h1
      subst hbeq
      rcases hinv.2.1 with h2 | ⟨d, hd1, hd2, hd3, hd4⟩
      · exact Or.inl h2
      · exact Or.inr ⟨d, hd1, hd2, hd3, hd4⟩
  · rw [if_neg h] at hb
    exact hinv.1 b hb

/-- Witness for C2's amended theorem: on the wide scenario, the final
planned batch (the 50 MB re-emission of a/c/z) satisfies the ceiling
disjunction. -/
theorem batch_ceiling_dedicated_overflow_witness :
    (⟨[["a", "c", "z"]], [], 50 * 1024 * 1024⟩ : Batch).size ≤ mb100 ∨
      ∃ d, mb100 < (dirUnit fsWide (extendFilesDict invWide.1 invWide.2.2) d).2 ∧
        (⟨[["a", "c", "z"]], [], 50 * 1024 * 1024⟩ : Batch).adds =
          (dirUnit fsWide (extendFilesDict invWide.1 invWide.2.2) d).1 ∧
        (⟨[["a", "c", "z"]], [], 50 * 1024 * 1024⟩ : Batch).dels =
          (alistGet? invWide.2.2 d).getD [] ∧
        (⟨[["a", "c", "z"]], [], 50 * 1024 * 1024⟩ : Batch).size =
          (dirUnit fsWide (extendFilesDict invWide.1 invWide.2.2) d).2 :=
  batch_ceiling_dedicated_overflow fsWide invWide.1 invWide.2.2
    [["a", "b"], ["a", "c"], ["a"]]
    ⟨[["a", "c", "z"]], [], 50 * 1024 * 1024⟩ (by decide)

/-! ## Claim C3: the directory aggregator -/

theorem contains_eq_false_iff (l : List Path) (p : Path) :
    l.contains p = false ↔ p ∉ l := by
  simp [List.contains, List.elem_eq_mem]

section AListLemmas

variable {α : Type}

theorem alistGet?_set_self (l : List (Path × α)) (k : Path) (v : α) :
    alistGet? (alistSet l k v) k = some v := by
  unfold alistSet alistGet?
  split_ifs with hany
  · induction l with
    | nil => simp at hany
    | cons e t ih =>
      by_cases he : (e.1 == k) = true
      · rw [List.map_cons, if_pos he,
          @List.find?_cons_of_pos (Path × α) (fun x => x.1 == k) (k, v) _
            (by simp)]
        rfl
      · simp only [List.any_cons, he, Bool.false_or] at hany
        rw [List.map_cons, if_neg he,
          @List.find?_cons_of_neg (Path × α) (fun x => x.1 == k) e _ he]
        exact ih hany
  · rw [List.find?_append]
    have hnone : l.find? (fun e => e.1 == k) = none := by
      rw [List.find?_eq_none]
      intro e he
      intro hek
      exact hany (List.any_eq_true.mpr ⟨e, he, hek⟩)
    rw [hnone]
    simp

theorem alistGet?_map_set_ne (t : List (Path × α)) (k : Path) (v : α)
    (k' : Path) (h : k' ≠ k) :
    alistGet? (t.map (fun e => if e.1 == k then (k, v) else e)) k' =
      alistGet? t k' := by
  induction t with
  | nil => rfl
  | cons e t ih =>
    unfold alistGet? at ih ⊢
    rw [List.map_cons]
    by_cases he : (e.1 == k) = true
    · have he1 : e.1 = k := by simpa using he
      have hkk : ((k, v).1 == k') = false := by
        simp only [beq_eq_false_iff_ne]
        exact fun hkk2 => h hkk2.symm
      have he2 : (e.1 == k') = false := by
        rw [he1]
        simpa [beq_eq_false_iff_ne] using fun hkk2 => h hkk2.symm
      rw [if_pos he,
        @List.find?_cons_of_neg (Path × α) (fun x => x.1 == k') (k, v) _
          (by simp [hkk]),
        @List.find?_cons_of_neg (Path × α) (fun x => x.1 == k') e _
          (by simp [he2])]
      exact ih
    · rw [if_neg he]
      by_cases he' : (e.1 == k') = true
      · rw [@List.find?_cons_of_pos (Path × α) (fun x => x.1 == k') e _ he',
          @List.find?_cons_of_pos (Path × α) (fun x => x.1 == k') e _ he']
      · rw [@List.find?_cons_of_neg (Path × α) (fun x => x.1 == k') e _ he',
          @List.find?_cons_of_neg (Path × α) (fun x => x.1 == k') e _ he']
        exact ih

theorem alistGet?_set_ne (l : List (Path × α)) (k : Path) (v : α)
    (k' : Path) (h : k' ≠ k) :
    alistGet? (alistSet l k v) k' = alistGet? l k' := by
  unfold alistSet
  split_ifs with hany
  · exact alistGet?_map_set_ne l k v k' h
  · unfold alistGet?
    rw [List.find?_append]
    have hsing : List.find? (fun e => e.1 == k') [(k, v)] = none := by
      have : ((k, v).1 == k') = false := by
        simp only [beq_eq_false_iff_ne]
        exact fun hkk2 => h hkk2.symm
      simp [List.find?, this]
    rw [hsing]
    cases l.find? (fun e => e.1 == k') <;> rfl

theorem alistGet?_mem {l : List (Path × α)} {k : Path} {v : α}
    (h : alistGet? l k = some v) : (k, v) ∈ l := by
  unfold alistGet? at h
  cases hf : l.find? (fun e => e.1 == k) with
  | none => rw [hf] at h; simp at h
  | some e =>
    rw [hf] at h
    simp at h
    have he1 := List.find?_some hf
    have he2 : e ∈ l := List.mem_of_find?_eq_some hf
    have heq : e = (k, v) := by
      obtain ⟨e1, e2⟩ := e
      simp at he1 h
      rw [he1, h]
    rwa [← heq]

end AListLemmas

theorem aggFileStep_fold_preserve :
    ∀ (cur : List (Path × Nat)) (acc : List (Path × Nat) × List Path)
      (p : Path), (∀ fe ∈ cur, fe.1 ≠ p) →
      alistGet? ((cur.foldl aggFileStep acc).1) p = alistGet? acc.1 p := by
  intro cur
  induction cur with
  | nil => intro acc p _; rfl
  | cons fe t ih =>
    intro acc p hne
    rw [List.foldl_cons]
    have hstep : alistGet? ((aggFileStep acc fe).1) p = alistGet? acc.1 p := by
      unfold aggFileStep
      split_ifs with h
      · rfl
      · exact alistGet?_set_ne acc.1 fe.1 fe.2 p
          (fun hp => hne fe (List.mem_cons_self fe t) hp.symm)
    rw [ih (aggFileStep acc fe) p (fun fe' hfe' => hne fe' (List.mem_cons_of_mem fe hfe')),
      hstep]

theorem aggFileStep_fold_spec :
    ∀ (cur : List (Path × Nat)) (acc : List (Path × Nat) × List Path),
      (∀ fe ∈ cur, acc.2.contains fe.1 = false) →
      (cur.map (fun fe => fe.1)).Nodup →
      (∀ fe ∈ cur,
        alistGet? ((cur.foldl aggFileStep acc).1) fe.1 = some fe.2) ∧
      (cur.foldl aggFileStep acc).2 = acc.2 ++ cur.map (fun fe => fe.1) := by
  intro cur
  induction cur with
  | nil => intro acc _ _; simp
  | cons fe t ih =>
    intro acc hnc hnd
    rw [List.foldl_cons]
    have hstep : aggFileStep acc fe = (alistSet acc.1 fe.1 fe.2, acc.2 ++ [fe.1]) := by
      unfold aggFileStep
      rw [if_neg]
      rw [hnc fe (List.mem_cons_self fe t)]
      simp
    rw [hstep]
    rw [List.map_cons, List.nodup_cons] at hnd
    have hnc' : ∀ fe' ∈ t, ((acc.2 ++ [fe.1]).contains fe'.1) = false := by
      intro fe' hfe'
      have h1 : acc.2.contains fe'.1 = false :=
        hnc fe' (List.mem_cons_of_mem fe hfe')
      have h2 : fe'.1 ≠ fe.1 := by
        intro he
        exact hnd.1 (he ▸ List.mem_map_of_mem (fun x => x.1) hfe')
      rw [contains_eq_false_iff] at h1 ⊢
      intro hm
      rcases List.mem_append.mp hm with hm | hm
      · exact h1 hm
      · exact h2 (by simpa using hm)
    obtain ⟨ihg, ihp⟩ := ih (alistSet acc.1 fe.1 fe.2, acc.2 ++ [fe.1]) hnc' hnd.2
    constructor
    · intro fe' hfe'
      rcases List.mem_cons.mp hfe' with rfl | hfe'
      · rw [aggFileStep_fold_preserve t _ fe'.1 ?keys]
        case keys =>
          intro fe2 hfe2 heq
          exact hnd.1 (heq ▸ List.mem_map_of_mem (fun x => x.1) hfe2)
        exact alistGet?_set_self acc.1 fe'.1 fe'.2
      · exact ihg fe' hfe'
    · rw [ihp]
      simp

/-- Soundness of the grouping by immediate directory: every entry of
dir_files_map has a nonempty key, and its members are exactly files whose
dirname is that key. -/
theorem dir_files_map_sound (af : List (Path × Nat)) :
    ∀ e ∈ dir_files_map af, e.1 ≠ [] ∧ ∀ fe ∈ e.2, dirname fe.1 = e.1 := by
  unfold dir_files_map
  suffices H : ∀ (l : List (Path × Nat)) (m0 : List (Path × List (Path × Nat))),
      (∀ e ∈ m0, e.1 ≠ [] ∧ ∀ fe ∈ e.2, dirname fe.1 = e.1) →
      ∀ e ∈ l.foldl (fun m fe =>
        if dirname fe.1 = [] then m else mapAppend m (dirname fe.1) fe) m0,
        e.1 ≠ [] ∧ ∀ fe ∈ e.2, dirname fe.1 = e.1 by
    exact H af [] (by simp)
  intro l
  induction l with
  | nil => intro m0 h0; exact h0
  | cons fe0 t ih =>
    intro m0 h0
    rw [List.foldl_cons]
    apply ih
    split_ifs with hd
    · exact h0
    · intro e he
      unfold mapAppend at he
      split_ifs at he with hany
      · rcases List.mem_map.mp he with ⟨e0, he0, rfl⟩
        by_cases hk : (e0.1 == dirname fe0.1) = true
        · have hk' : e0.1 = dirname fe0.1 := by simpa using hk
          rw [if_pos hk]
          refine ⟨(h0 e0 he0).1, ?_⟩
          intro fe1 hfe1
          rcases List.mem_append.mp hfe1 with hfe1 | hfe1
          · exact (h0 e0 he0).2 fe1 hfe1
          · have hfe1' : fe1 = fe0 := by simpa using hfe1
            simp [hfe1', hk']
        · rw [if_neg hk]
          exact h0 e0 he0
      · rcases List.mem_append.mp he with he | he
        · exact h0 e he
        · have heq : e = (dirname fe0.1, [fe0]) := by simpa using he
          subst heq
          refine ⟨hd, ?_⟩
          intro fe1 hfe1
          have hfe1' : fe1 = fe0 := by simpa using hfe1
          rw [hfe1']

theorem aggFileStep_fold_processed_sub :
    ∀ (cur : List (Path × Nat)) (acc : List (Path × Nat) × List Path)
      (p : Path), p ∈ (cur.foldl aggFileStep acc).2 →
      p ∈ acc.2 ∨ ∃ fe ∈ cur, fe.1 = p := by
  intro cur
  induction cur with
  | nil => intro acc p h; exact Or.inl h
  | cons fe t ih =>
    intro acc p h
    rw [List.foldl_cons] at h
    rcases ih (aggFileStep acc fe) p h with h1 | ⟨fe1, hfe1, rfl⟩
    · unfold aggFileStep at h1
      split_ifs at h1 with hc
      · exact Or.inl h1
      · rcases List.mem_append.mp h1 with h2 | h2
        · exact Or.inl h2
        · have h3 : p = fe.1 := by simpa using h2
          exact Or.inr ⟨fe, List.mem_cons_self fe t, h3.symm⟩
    · exact Or.inr ⟨fe1, List.mem_cons_of_mem fe hfe1, rfl⟩

theorem aggStep_processed_sub (acc : List (Path × Nat) × List Path)
    (d : Path) (ms : List (Path × Nat)) (p : Path)
    (h : p ∈ (aggStep acc d ms).2) :
    p ∈ acc.2 ∨ ∃ fe ∈ ms, fe.1 = p := by
  have hsub : ∀ fe ∈ aggCurrent acc.2 ms, fe ∈ ms := by
    intro fe hfe
    exact (List.mem_filter.mp hfe).1
  simp only [aggStep] at h
  split_ifs at h with h1 h2
  · exact Or.inl h
  · rcases List.mem_append.mp h with h3 | h3
    · exact Or.inl h3
    · rcases List.mem_map.mp h3 with ⟨fe, hfe, rfl⟩
      exact Or.inr ⟨fe, hsub fe hfe, rfl⟩
  · rcases aggFileStep_fold_processed_sub _ acc p h with h3 | ⟨fe, hfe, rfl⟩
    · exact Or.inl h3
    · exact Or.inr ⟨fe, hsub fe hfe, rfl⟩

theorem aggregateDirs_processed (m : List (Path × List (Path × Nat)))
    (p : Path) (h : p ∈ (aggregateDirs m).2) :
    ∃ e ∈ m, ∃ fe ∈ e.2, fe.1 = p := by
  unfold aggregateDirs at h
  suffices H : ∀ (ds : List Path) (acc : List (Path × Nat) × List Path),
      p ∈ (ds.foldl (fun acc d => aggStep acc d ((alistGet? m d).getD []))
        acc).2 →
      p ∈ acc.2 ∨ ∃ e ∈ m, ∃ fe ∈ e.2, fe.1 = p by
    rcases H (sortDirsDesc (alistKeys m)) ([], []) h with h1 | h1
    · exact absurd h1 (List.not_mem_nil p)
    · exact h1
  intro ds
  induction ds with
  | nil => intro acc h1; exact Or.inl h1
  | cons d t ih =>
    intro acc h1
    rw [List.foldl_cons] at h1
    rcases ih _ h1 with h2 | h2
    · rcases aggStep_processed_sub acc d _ p h2 with h3 | ⟨fe, hfe, rfl⟩
      · exact Or.inl h3
      · cases hget : alistGet? m d with
        | none => rw [hget] at hfe; exact absurd hfe (List.not_mem_nil fe)
        | some v =>
          rw [hget] at hfe
          exact Or.inr ⟨(d, v), alistGet?_mem hget, fe, hfe, rfl⟩
    · exact Or.inr h2

/-- Every consumed path has a directory component: consumption only
happens through dir_files_map entries, whose members all live in a
nonempty directory. -/
theorem processed_dirname_ne_nil (af : List (Path × Nat)) (p : Path)
    (h : p ∈ (aggregateDirs (dir_files_map af)).2) : dirname p ≠ [] := by
  rcases aggregateDirs_processed _ p h with ⟨e, he, fe, hfe, rfl⟩
  obtain ⟨hne, hdir⟩ := dir_files_map_sound af e he
  rw [hdir fe hfe]
  exact hne

theorem topStep_fold_preserve :
    ∀ (t : List (Path × Nat)) (processed : List Path)
      (r : List (Path × Nat)) (p : Path), (∀ fe ∈ t, fe.1 ≠ p) →
      alistGet? (t.foldl (topStep processed) r) p = alistGet? r p := by
  intro t
  induction t with
  | nil => intro _ _ _ _; rfl
  | cons fe t ih =>
    intro processed r p hne
    rw [List.foldl_cons,
      ih processed _ p (fun fe' hfe' => hne fe' (List.mem_cons_of_mem fe hfe'))]
    unfold topStep
    split_ifs with hc
    · exact alistGet?_set_ne r fe.1 fe.2 p
        (fun hp => hne fe (List.mem_cons_self fe t) hp.symm)
    · rfl

theorem topStep_fold_get :
    ∀ (af : List (Path × Nat)) (processed : List Path)
      (r : List (Path × Nat)),
      ((af.map (fun fe => fe.1)).Nodup) →
      ∀ fe ∈ af, dirname fe.1 = [] → processed.contains fe.1 = false →
        alistGet? (af.foldl (topStep processed) r) fe.1 = some fe.2 := by
  intro af
  induction af with
  | nil => intro _ _ _ fe h; exact absurd h (List.not_mem_nil fe)
  | cons fe0 t ih =>
    intro processed r hnd fe hfe hdir hcont
    rw [List.map_cons, List.nodup_cons] at hnd
    rw [List.foldl_cons]
    rcases List.mem_cons.mp hfe with rfl | hfe
    · rw [topStep_fold_preserve t processed _ fe.1 (fun fe2 hfe2 heq =>
        hnd.1 (heq ▸ List.mem_map_of_mem (fun x => x.1) hfe2))]
      unfold topStep
      rw [if_pos ⟨hdir, by rw [hcont]; rfl⟩]
      exact alistGet?_set_self r fe.1 fe.2
    · exact ih processed _ hnd.2 fe hfe hdir hcont

/-- C3.  The aggregator (i) processes directories in descending
path-segment depth — the processing order is a permutation of the
directory keys, sorted (stably) by nonincreasing separator count; (ii) a
directory whose currently unconsumed members total at most 50 MB is
emitted as one collapsed entry and its members are marked consumed;
(iii) a directory above 50 MB gets its unconsumed members re-emitted as
individual per-file entries (also marked consumed); and (iv) a top-level
file with no directory component always appears in the final dictionary
as an individual entry. -/
theorem aggregator_depth_order_and_collapse :
    (∀ ds : List Path,
      (sortDirsDesc ds).Perm ds ∧ (sortDirsDesc ds).Sorted depthGE) ∧
    (∀ (acc : List (Path × Nat) × List Path) (d : Path)
        (ms : List (Path × Nat)), aggCurrent acc.2 ms ≠ [] →
      ((aggCurrent acc.2 ms).map (fun fe => fe.2)).sum ≤ mb50 →
        alistGet? (aggStep acc d ms).1 d =
          some (((aggCurrent acc.2 ms).map (fun fe => fe.2)).sum) ∧
        (aggStep acc d ms).2 =
          acc.2 ++ (aggCurrent acc.2 ms).map (fun fe => fe.1)) ∧
    (∀ (acc : List (Path × Nat) × List Path) (d : Path)
        (ms : List (Path × Nat)), aggCurrent acc.2 ms ≠ [] →
      mb50 < ((aggCurrent acc.2 ms).map (fun fe => fe.2)).sum →
      ((aggCurrent acc.2 ms).map (fun fe => fe.1)).Nodup →
        (∀ fe ∈ aggCurrent acc.2 ms,
          alistGet? (aggStep acc d ms).1 fe.1 = some fe.2) ∧
        (aggStep acc d ms).2 =
          acc.2 ++ (aggCurrent acc.2 ms).map (fun fe => fe.1)) ∧
    (∀ (fs : FS) (gitFiles deletedFiles : List Path),
      ((buildAllFiles fs gitFiles).map (fun fe => fe.1)).Nodup →
      ∀ fe ∈ buildAllFiles fs gitFiles, dirname fe.1 = [] →
        alistGet? (scan_and_categorize fs gitFiles deletedFiles).1 fe.1 =
          some fe.2) := by
  refine ⟨?_, ?_, ?_, ?_⟩
  · intro ds
    exact ⟨List.perm_insertionSort depthGE ds,
      List.sorted_insertionSort depthGE ds⟩
  · intro acc d ms hne htot
    simp only [aggStep]
    rw [if_neg hne, if_pos htot]
    exact ⟨alistGet?_set_self acc.1 d _, rfl⟩
  · intro acc d ms hne htot hnd
    simp only [aggStep]
    rw [if_neg hne, if_neg (by omega)]
    apply aggFileStep_fold_spec
    · intro fe hfe
      have := (List.mem_filter.mp hfe).2
      revert this
      cases h : acc.2.contains fe.1 <;> simp
    · exact hnd
  · intro fs gitFiles deletedFiles hnd fe hfe hdir
    have hgf : gitFiles ≠ [] := by
      intro h0
      rw [h0] at hfe
      exact absurd hfe (List.not_mem_nil fe)
    have haf : buildAllFiles fs gitFiles ≠ [] := by
      intro h0
      rw [h0] at hfe
      exact absurd hfe (List.not_mem_nil fe)
    simp only [scan_and_categorize]
    rw [if_neg (by simp [hgf]), if_neg (by simp [haf])]
    unfold addTopLevel
    apply topStep_fold_get (buildAllFiles fs gitFiles) _ _ hnd fe hfe hdir
    rw [contains_eq_false_iff]
    intro hmem
    exact processed_dirname_ne_nil (buildAllFiles fs gitFiles) fe.1 hmem hdir

/-- Witness for C3: in a tree with the single top-level file t of five
bytes, the aggregated dictionary maps t to 5. -/
theorem aggregator_depth_order_and_collapse_witness :
    alistGet? (scan_and_categorize [⟨["t"], 5⟩] [["t"]] []).1 ["t"] = some 5 :=
  aggregator_depth_order_and_collapse.2.2.2 [⟨["t"], 5⟩] [["t"]] []
    (by decide) (["t"], 5) (by decide) (by decide)

end GitBatch
